import Mathlib

/-!
Verification development for the docgen documentation generator
(src/main.cpp).  Strings are modelled as `List Char`; machine indices as
`Nat`; `std::string::substr` out-of-range exceptions and uncaught
`std::stoi` exceptions are modelled explicitly.  All definitions are
translated from src/main.cpp; line numbers refer to that file.
-/

/-- Character strings of the C++ program, modelled as lists of chars. -/
abbrev Str := List Char

/-- C `isspace` in the default locale on ASCII input (main.cpp uses
`std::isspace`). -/
def isspaceC (c : Char) : Bool :=
  c = ' ' || c = '\t' || c = '\n' || c = '\x0b' || c = '\x0c' || c = '\r'

/-- C `isupper` on ASCII input. -/
def isupperC (c : Char) : Bool := 'A' ≤ c && c ≤ 'Z'

/-- C `isalnum` on ASCII input. -/
def isalnumC (c : Char) : Bool :=
  ('A' ≤ c && c ≤ 'Z') || ('a' ≤ c && c ≤ 'z') || ('0' ≤ c && c ≤ '9')

/-- C `isdigit` on ASCII input. -/
def isdigitC (c : Char) : Bool := '0' ≤ c && c ≤ '9'

/-- Read `s[i]`.  `std::string::operator[]` returns NUL at `i = size()`;
reads beyond that are undefined behaviour in C++ and are modelled as NUL
here as well. -/
def charAt (s : Str) (i : Nat) : Char := s.getD i (Char.ofNat 0)

/-- Characters of `s` at positions `a ≤ j < b` (clamped to the string, the
way `substr` clamps an oversized count). -/
def extract (s : Str) (a b : Nat) : Str := (s.take b).drop a

/-- Errors of a run: `outOfFuel` marks that the modelled recursion depth
was exceeded, `exn` models an uncaught C++ exception
(`std::out_of_range` from `substr`, or `std::invalid_argument` /
`std::out_of_range` from `std::stoi`). -/
inductive RunErr where
  | outOfFuel
  | exn
deriving DecidableEq, Repr

/-- `std::string::substr(pos, b - pos)`: throws `std::out_of_range`
when `pos > size()`; otherwise clamps. -/
def substrE (s : Str) (pos b : Nat) : Except RunErr Str :=
  if pos ≤ s.length then .ok (extract s pos b) else .error .exn

/-- Sequencing of fallible steps (C++ control flow after a throwing call). -/
def exBind {α β : Type} (e : Except RunErr α) (g : α → Except RunErr β) :
    Except RunErr β :=
  match e with
  | .error er => .error er
  | .ok a => g a

/-- `strip` (main.cpp lines 64-75): remove leading and trailing
whitespace.  The two index scans of the source are equivalently expressed
by dropping a whitespace run at each end. -/
def strip (s : Str) : Str :=
  ((s.dropWhile isspaceC).reverse.dropWhile isspaceC).reverse

/-- Loop of `simplify_whitespace` (main.cpp lines 77-95): every maximal
whitespace run becomes one space.  The C++ loop skips the rest of a run
after its first character; here the flag records being inside a run. -/
def swGo : List Char → Bool → Str
  | [], _ => []
  | c :: r, inRun =>
    if isspaceC c then
      if inRun then swGo r true else ' ' :: swGo r true
    else c :: swGo r false

/-- `simplify_whitespace` (main.cpp lines 77-95). -/
def simplify_whitespace (s : Str) : Str := strip (swGo s false)

/-- `fs::path(filename).filename()` as used by FILE_NAME (main.cpp line
316-317), POSIX separators: the part after the last slash. -/
def basename (p : Str) : Str := (p.reverse.takeWhile (fun c => c ≠ '/')).reverse

/-- Lookup in an `unordered_map` modelled as an association list. -/
def lookupMap (m : List (Str × Str)) (k : Str) : Option Str :=
  match m with
  | [] => none
  | (k0, v0) :: r => if k0 = k then some v0 else lookupMap r k

/-- Store into an `unordered_map` modelled as an association list. -/
def setMap (m : List (Str × Str)) (k v : Str) : List (Str × Str) :=
  match m with
  | [] => [(k, v)]
  | (k0, v0) :: r => if k0 = k then (k0, v) :: r else (k0, v0) :: setMap r k v

/-- `map[k] += c` (operator[] default-constructs a missing entry). -/
def appendToKey (m : List (Str × Str)) (k : Str) (c : Char) : List (Str × Str) :=
  setMap m k ((lookupMap m k).getD [] ++ [c])

/-- Whether `pat` occurs contiguously inside `s`. -/
def hasSub (pat : Str) : Str → Bool
  | [] => decide (pat = [])
  | c :: r => pat.isPrefixOf (c :: r) || hasSub pat r

/-- First position `j ≥ i` whose character is `')'`, else the end of the
text (the forward scan at main.cpp lines 128-131); `l` is the text from
position `i` on. -/
def idxFrom : List Char → Nat → Char → Nat
  | [], i, _ => i
  | c :: r, i, p => if c = p then i else idxFrom r (i + 1) p

/-- Loop of `parse_args` (main.cpp lines 104-136).  `l` is the text of
`src` from position `i` on; `lastPos` is the position of the last
top-level comma (initially the opening delimiter).  Result: the argument
list and `some poss` when the early `parenDepth == -1` return fired
(updating the caller's index to `poss`), `none` when the loop ran to the
end of the text; the outer `none` models the `std::out_of_range` throw of
the final `substr` (possible only when the start index is at or past the
end).  Note the final `substr(lastPos+1, size()-lastPos-2)` at line 137
stops one character short of the end of the buffer. -/
def pargsLoop (src : Str) :
    List Char → Nat → Nat → Int → Int → Int → Bool → List Str →
    Option (List Str × Option Nat)
  | [], _i, lastPos, _pd, _bd, _cd, _q, acc =>
    if lastPos + 1 ≤ src.length then
      some (acc ++ [strip (extract src (lastPos + 1) (src.length - 1))], none)
    else none
  | c :: rest, i, lastPos, pd, bd, cd, q, acc =>
    let q1 := if c = '"' then !q else q
    if q1 then pargsLoop src rest (i + 1) lastPos pd bd cd q1 acc
    else
      let pd1 := if c = '(' then pd + 1 else if c = ')' then pd - 1 else pd
      let bd1 := if c = '[' then bd + 1 else if c = ']' then bd - 1 else bd
      let cd1 := if c = '\x7b' then cd + 1 else if c = '\x7d' then cd - 1 else cd
      let isComma : Bool := c = ',' && pd1 = 0 && bd1 = 0 && cd1 = 0
      let acc1 := if isComma then acc ++ [strip (extract src (lastPos + 1) i)] else acc
      let lp1 := if isComma then i else lastPos
      if pd1 = -1 then
        let poss := idxFrom (c :: rest) i ')'
        some (acc1 ++ [strip (extract src (lp1 + 1) poss)], some poss)
      else pargsLoop src rest (i + 1) lp1 pd1 bd1 cd1 q1 acc1

/-- `parse_args` (main.cpp lines 97-139).  Returns the split arguments and
the updated reference parameter `index`: `some poss` from the early
return, `none` when `index` is left unchanged; outer `none` models the
uncaught `std::out_of_range`. -/
def parse_args (src : Str) (index : Nat) : Option (List Str × Option Nat) :=
  pargsLoop src (src.drop (index + 1)) (index + 1) index 0 0 0 false []

/-- `std::stoi` (used at main.cpp line 273): skip whitespace, optional
sign, at least one decimal digit, stop at the first non-digit; `none`
models the thrown `std::invalid_argument` / `std::out_of_range`. -/
def stoiOpt (s : Str) : Option Int :=
  let t := s.dropWhile isspaceC
  let sign : Int := if charAt t 0 = '-' then -1 else 1
  let t1 := if charAt t 0 = '-' || charAt t 0 = '+' then t.drop 1 else t
  let digs := t1.takeWhile isdigitC
  if digs = [] then none
  else
    let v : Int := sign * (digs.foldl (fun a c => a * 10 + (c.toNat - '0'.toNat)) 0 : Nat)
    if v < -2147483648 || 2147483647 < v then none else some v

/-- Index selection of FUNC_ARG (main.cpp lines 273-281): negative
`argNum` is offset by the argument count; an index outside the range
reports an error and yields nothing. -/
def selectIdx (argss : List Str) (argNum : Int) : Option Str :=
  let n : Int := if argNum < 0 then (argss.length : Int) + argNum else argNum
  if n < 0 || (argss.length : Int) ≤ n then none
  else some (argss.getD n.toNat [])

/-- `DocContext` (main.cpp lines 48-56).  `outputDir` and `inputDocgen`
are filesystem concerns outside the embedding. -/
structure DocContext where
  sections : List (Str × Str)
  mainSection : Str
  currentSection : Str
  output : Str
  aliases : List (Str × Str)
deriving DecidableEq, Repr

/-- `CommentData` (main.cpp lines 58-62). -/
structure CommentData where
  index : Nat
  end_index : Nat
  comment : Str
deriving DecidableEq, Repr

/-- `process_char` (main.cpp lines 141-147). -/
def process_char (c : Char) (ctx : DocContext) : DocContext :=
  if ctx.currentSection = [] then
    { ctx with mainSection := ctx.mainSection ++ [c] }
  else
    { ctx with sections := appendToKey ctx.sections ctx.currentSection c }

/-- `process_string` (main.cpp lines 149-153). -/
def process_string (s : Str) (ctx : DocContext) : DocContext :=
  s.foldl (fun ctx c => process_char c ctx) ctx

/-- A scan `while (j < size && !p(src[j])) j++` over the text `l` of `src`
from position `i` on: the first position at which `p` holds, else the end
of `l`. -/
def scanFrom (p : Char → Bool) : List Char → Nat → Nat
  | [], i => i
  | c :: r, i => if p c then i else scanFrom p r (i + 1)

/-- First position `j ≥ start` with `src[j] = c`, else the end of the
text (the pattern `while (end < src.size() && src[end] != c) end++;`). -/
def scanToCh (src : Str) (start : Nat) (c : Char) : Nat :=
  scanFrom (fun x => x = c) (src.drop start) start

/-- A scan `while (e > 0 && p(src[e-1])) e--;`. -/
def walkBackWhile (p : Char → Bool) (src : Str) : Nat → Nat
  | 0 => 0
  | e + 1 => if p (charAt src e) then walkBackWhile p src e else e + 1

/-- End of the identifier of a command name (main.cpp line 428): advance
while alphanumeric or underscore. -/
def scanIdentEnd (cmt : Str) (start : Nat) : Nat :=
  scanFrom (fun c => !(isalnumC c || c = '_')) (cmt.drop start) start

/-- The balanced-parenthesis scan of FUNC_ARGS / FUNC_ARG (main.cpp lines
232-244): starting on the opening parenthesis, stop at the position where
the running depth returns to zero, or at the end of the text.  `l` is the
text from position `i` on. -/
def matchParenEnd : List Char → Nat → Int → Nat
  | [], i, _ => i
  | c :: r, i, depth =>
    let d := if c = '(' then depth + 1 else if c = ')' then depth - 1 else depth
    if d = 0 then i else matchParenEnd r (i + 1) d

/-- Two-character `std::string::find(xy, start)` over the text of `src`
from `start` on. -/
def find2Go : List Char → Nat → Char → Char → Option Nat
  | a :: b :: r, i, x, y =>
    if a = x && b = y then some i else find2Go (b :: r) (i + 1) x y
  | _, _, _, _ => none

/-- `src.find(xy, start)` with `npos` mapped to `src.size()` the way the
callers in main.cpp map it. -/
def find2From (src : Str) (start : Nat) (x y : Char) : Nat :=
  (find2Go (src.drop start) start x y).getD src.length

/-- Comment-extraction loop of `process_source` (main.cpp lines 391-415).
The fuel is the number of remaining iterations (each iteration advances
`index` by at least one, so `src.length` suffices). -/
def extractComments (src : Str) : Nat → Nat → List CommentData
  | 0, _ => []
  | fuel + 1, index =>
    if index < src.length then
      if charAt src index = '/' && charAt src (index + 1) = '/' then
        let e := scanToCh src index '\n'
        ⟨index, e, strip (extract src (index + 2) e)⟩ :: extractComments src fuel e
      else if charAt src index = '/' && charAt src (index + 1) = '*' then
        let e := find2From src index '*' '/'
        -- substr(index+2, e-index-2): a size_t wrap (e < index+2) clamps to the end
        let stop := if index + 2 ≤ e then e else src.length
        ⟨index, e + 2, strip (extract src (index + 2) stop)⟩ :: extractComments src fuel (e + 2)
      else extractComments src fuel (index + 1)
    else []

/-- The comment list produced for a source text (main.cpp lines 390-415). -/
def extract_comments (src : Str) : List CommentData := extractComments src src.length 0

/-- The FUNC_NAME capture (main.cpp lines 181-203): position of the next
`'('`, walk back over non-identifier characters, then over the
identifier; an identifier equal to `"operator"` extends the capture
forward to the next `'('` (the captured substring stops before it). -/
def funcNameCapture (src : Str) (ei : Nat) : Except RunErr Str :=
  let e0 := scanToCh src (ei + 1) '('
  let e1 := walkBackWhile (fun c => !(isalnumC c || c = '_')) src e0
  let s0 := walkBackWhile (fun c => isalnumC c || c = '_') src e1
  exBind (substrE src s0 e1) (fun a0 =>
    let a := strip a0
    if a = "operator".data then
      exBind (substrE src s0 (scanToCh src e1 '(')) (fun a2 => .ok (strip a2))
    else .ok a)

/-- Recursion type of `process_source` (main.cpp line 155) as seen from
`process_src_command`: source text, context, realSource flag, filename. -/
abbrev SrcRec := Str → DocContext → Bool → Str → Except RunErr DocContext

/-- `process_src_command` (main.cpp lines 157-386).  `rec` is the
recursive entry into `process_source` used by the alias branch; `sfuel`
bounds the SIMPLIFY self-calls (each strictly shortens `args`, so
`args.length + 1` suffices).  The extension-module branch (lines 358-381)
loads native code from disk and is outside the embedding: the model
covers runs in which no extension module exists, where the lookup fails
and the command is reported as unknown with no output (lines 382-384). -/
def process_src_commandF (rec : SrcRec) :
    Nat → Str → List Str → DocContext → CommentData → Str → Bool → Str →
    Except RunErr DocContext
  | 0, _, _, ctx, _, _, _, _ => .ok ctx
  | sfuel + 1, command0, args, ctx, comment, src, simplify0, filename =>
    let command1 := strip command0
    -- lines 159-162: a leading "S_" strips and forces simplification
    let command := if charAt command1 0 = 'S' && charAt command1 1 = '_' then
        command1.drop 2 else command1
    let simplify := if charAt command1 0 = 'S' && charAt command1 1 = '_' then
        true else simplify0
    let pstr : Str → DocContext → DocContext := fun s c =>
      process_string (if simplify then simplify_whitespace s else s) c
    if command = "SECTION".data then
      -- lines 167-172
      .ok (if args = [] then { ctx with currentSection := [] }
           else { ctx with currentSection := args.getD 0 [] })
    else if command = "NEXT_LINE".data then
      -- lines 173-180
      let e := scanToCh src (comment.end_index + 1) '\n'
      exBind (substrE src comment.end_index e) (fun a => .ok (pstr (strip a) ctx))
    else if command = "FUNC_NAME".data then
      -- lines 181-203
      exBind (funcNameCapture src comment.end_index) (fun a => .ok (pstr a ctx))
    else if command = "NEXT_DECL".data then
      -- lines 204-213
      let e := scanFrom (fun c => c = ';' || c = '=' || c = '\x7b')
        (src.drop (comment.end_index + 1)) (comment.end_index + 1)
      exBind (substrE src (comment.end_index + 1) e)
        (fun a => .ok (pstr (strip a ++ [';']) ctx))
    else if command = "FUNC_RET".data then
      -- lines 214-225
      let e0 := scanToCh src (comment.end_index + 1) '('
      let st := comment.end_index + 1
      let e1 := walkBackWhile (fun c => !(isspaceC c)) src e0
      -- substr(start, end-start): a size_t wrap (e1 < st) clamps to the end
      let stop := if st ≤ e1 then e1 else src.length
      exBind (substrE src st stop) (fun a => .ok (pstr (strip a) ctx))
    else if command = "FUNC_ARGS".data then
      -- lines 226-246
      let st := scanToCh src (comment.end_index + 1) '('
      let e := matchParenEnd (src.drop st) st 0
      exBind (substrE src (st + 1) e) (fun a => .ok (pstr (strip a) ctx))
    else if command = "FUNC_ARG".data then
      -- lines 247-281
      if args.length ≠ 1 then .ok ctx  -- error: FUNC_ARG requires 1 argument
      else
        let st := scanToCh src (comment.end_index + 1) '('
        let e := matchParenEnd (src.drop st) st 0
        exBind (substrE src st (e + 1)) (fun argList =>
          match parse_args argList 0 with
          | none => .error .exn
          | some (argss, _) =>
            match stoiOpt (args.getD 0 []) with
            | none => .error .exn  -- std::stoi throws, uncaught
            | some n =>
              match selectIdx argss n with
              | none => .ok ctx    -- error: Argument not found
              | some a => .ok (pstr a ctx))
    else if command = "CLASS_NAME".data then
      -- lines 283-298; line 294 has `(start>0 && isalnum(..)) || .. == '_'`:
      -- for start > 0 this equals the intended conjunction, at start = 0 the
      -- C++ reads src[-1] (undefined behaviour), modelled as stopping
      let e0 := scanFrom (fun c => c = '\x7b' || c = ':' || c = ';')
        (src.drop (comment.end_index + 1)) (comment.end_index + 1)
      let e1 := walkBackWhile isspaceC src e0
      let s0 := walkBackWhile (fun c => isalnumC c || c = '_') src e1
      exBind (substrE src s0 e1) (fun a => .ok (pstr (strip a) ctx))
    else if command = "NEXT_MACRO".data then
      -- lines 299-313
      let st := scanToCh src (comment.end_index + 1) '#'
      let e := scanToCh src st ')'
      exBind (substrE src st e) (fun a => .ok (pstr (strip a ++ [')']) ctx))
    else if command = "FILE_NAME".data then
      -- lines 314-318
      .ok (pstr (basename filename) ctx)
    else if command = "SIMPLIFY".data || command = "S".data then
      -- lines 321-334
      match args with
      | [] => .ok ctx  -- error: wrong number of arguments in SIMPLIFY
      | [a0] => process_src_commandF rec sfuel a0 [] ctx comment src true filename
      | a0 :: restArgs =>
        process_src_commandF rec sfuel a0 restArgs ctx comment src true filename
    else
      match lookupMap ctx.aliases command with
      | some repl =>
        -- lines 335-355: replace the command by a synthesized documentation
        -- block followed by the source up to the next comment opener
        let st := comment.end_index + 1
        let e1 := find2From src st '/' '*'
        let e2 := find2From src st '/' '/'
        let e := if e2 < e1 then e2 else e1
        exBind (substrE src st e) (fun next_scr =>
          rec ("/* @DOC\n".data ++ repl ++ "\n@END\n*/\n".data ++ next_scr)
            ctx false filename)
      | none => .ok ctx  -- no extension module: error, unknown command

/-- `process_src_command` with the SIMPLIFY bound instantiated. -/
def process_src_command (rec : SrcRec) (command0 : Str) (args : List Str)
    (ctx : DocContext) (comment : CommentData) (src : Str) (simplify0 : Bool)
    (filename : Str) : Except RunErr DocContext :=
  process_src_commandF rec (args.length + 1) command0 args ctx comment src
    simplify0 filename

/-- Per-comment command scan of `process_source` (main.cpp lines
419-461).  The fuel counts remaining loop iterations (each iteration
advances `index` by at least one, so `cmt.length + 1` suffices and the
fuel-zero case is unreachable). -/
def commentLoop (rec : SrcRec) (cmt : Str) (comment : CommentData) (src : Str)
    (filename : Str) :
    Nat → Nat → Bool → DocContext → Except RunErr DocContext
  | 0, _, _, ctx => .ok ctx
  | fuelC + 1, index, doc, ctx =>
    if index < cmt.length then
      if charAt cmt index = '@' && isupperC (charAt cmt (index + 1)) then
        let e := scanIdentEnd cmt (index + 1)
        let cmdName := extract cmt (index + 1) e
        -- line 434: index += 2 + end - index - 2, i.e. index = end
        let index1 := e
        match (if charAt cmt index1 = '(' then
                 match parse_args cmt index1 with
                 | none => none
                 | some (as, io) => some (as, (io.getD index1) + 1)
               else some (([] : List Str), index1)) with
        | none => .error .exn
        | some (args, index2) =>
          -- lines 452-454: a backslash directly before '(' is skipped
          let index3 := if index2 + 1 < cmt.length && charAt cmt index2 = '\\'
              && charAt cmt (index2 + 1) = '(' then index2 + 1 else index2
          if cmdName = "DOC".data then
            commentLoop rec cmt comment src filename fuelC index3 true ctx
          else if cmdName = "END".data then
            commentLoop rec cmt comment src filename fuelC index3 false ctx
          else if doc then
            exBind (process_src_command rec cmdName args ctx comment src false filename)
              (fun ctx2 => commentLoop rec cmt comment src filename fuelC index3 doc ctx2)
          else commentLoop rec cmt comment src filename fuelC index3 doc ctx
      else
        let ctx2 := if doc then process_char (charAt cmt index) ctx else ctx
        commentLoop rec cmt comment src filename fuelC (index + 1) doc ctx2
    else .ok ctx

/-- Loop over the extracted comments (main.cpp lines 418-464); after each
comment of a real source the current section is reset (lines 462-463). -/
def processCommentsF (rec : SrcRec) :
    List CommentData → Str → DocContext → Bool → Str → Except RunErr DocContext
  | [], _, ctx, _, _ => .ok ctx
  | c :: rest, src, ctx, realSource, filename =>
    exBind (commentLoop rec c.comment c src filename (c.comment.length + 1) 0 false ctx)
      (fun ctx2 =>
        processCommentsF rec rest src
          (if realSource then { ctx2 with currentSection := [] } else ctx2)
          realSource filename)

/-- `process_source` (main.cpp lines 388-465).  The fuel bounds the
re-entries performed by alias expansion (which is unbounded in the C++
code); a result of `outOfFuel` for every fuel value means the C++
recursion does not terminate. -/
def process_source : Nat → Str → DocContext → Bool → Str → Except RunErr DocContext
  | 0, _, _, _, _ => .error .outOfFuel
  | fuel + 1, src, ctx, realSource, filename =>
    processCommentsF (process_source fuel) (extract_comments src) src ctx
      realSource filename

/-- Whitespace-only-line gap for `simplify_md`: drop spaces and tabs. -/
def dropSpTab : List Char → List Char
  | [] => []
  | c :: r => if c = ' ' || c = '\t' then dropSpTab r else c :: r

/-- One match of the regex `\n[ \t]*\n[ \t]*\n` of `simplify_md`
(main.cpp line 470) at the head of the text: returns the text after the
match. -/
def matchNL3 (l : List Char) : Option (List Char) :=
  match l with
  | c1 :: r1 =>
    if c1 = '\n' then
      match dropSpTab r1 with
      | c2 :: r2 =>
        if c2 = '\n' then
          match dropSpTab r2 with
          | c3 :: r3 => if c3 = '\n' then some r3 else none
          | [] => none
        else none
      | [] => none
    else none
  | [] => none

/-- Scan of `std::regex_replace` (main.cpp lines 467-472): a single
left-to-right pass; each non-overlapping match is replaced by two
newlines and the scan resumes after the matched text.  Fuel counts
remaining steps (each consumes at least one character). -/
def smGo : Nat → List Char → List Char
  | 0, _ => []
  | _ + 1, [] => []
  | fuel + 1, c :: rest =>
    match matchNL3 (c :: rest) with
    | some r => '\n' :: '\n' :: smGo fuel r
    | none => c :: smGo fuel rest

/-- `simplify_md` (main.cpp lines 467-472). -/
def simplify_md (s : Str) : Str := smGo s.length s

/-- The INSERT_SECTION branch of `process_md_command` (main.cpp lines
528-538): wrong argument count or a missing section reports an error and
leaves the output unchanged; otherwise the section buffer is appended
through `simplify_md`, followed by a blank line. -/
def insert_section (ctx : DocContext) (args : List Str) : DocContext :=
  if args.length ≠ 1 then ctx
  else
    match lookupMap ctx.sections (args.getD 0 []) with
    | none => ctx  -- error: Section not found
    | some buf =>
      { ctx with output := ctx.output ++ simplify_md buf ++ ['\n', '\n'] }

/-- The empty starting context (a fresh `DocContext`). -/
def ctx0 : DocContext := ⟨[], [], [], [], []⟩

/-- A source file with two comments; the first selects section `x`. -/
def srcC1 : Str := "/* @DOC @SECTION(x) a @END */\n/* @DOC b @END */\n".data

/-- An alias table registering `X` with replacement `@DOC hello @END`. -/
def aliasTab : List (Str × Str) := [("X".data, "@DOC hello @END".data)]

/-- Context holding the alias table `aliasTab`. -/
def ctxAlias : DocContext := ⟨[], [], [], [], aliasTab⟩

/-- A source whose comment invokes the alias `X`. -/
def srcAliasInvoke : Str := "/* @DOC @X @END */\n".data

/-- The same source with the replacement text of `X` written in place of
the invocation. -/
def srcAliasInline : Str := "/* @DOC @DOC hello @END @END */\n".data

/-- A source whose comment passes the non-numeric argument `x` to
FUNC_ARG. -/
def srcC5 : Str := "/* @DOC @FUNC_ARG(x) @END */\nf(a,b,c);\n".data

/-- The source whose single comment invokes alias `X`; with the table
`aliasSelf` the synthesized pseudo-source equals this very string. -/
def srcS9 : Str := "/* @DOC\n@X\n@END\n*/\n".data

/-- An alias table in which `X` expands to an invocation of itself. -/
def aliasSelf : List (Str × Str) := [("X".data, "@X".data)]

/-- Context holding the self-referential alias table. -/
def ctx9 : DocContext := ⟨[], [], [], [], aliasSelf⟩

/-- A source declaring an overloaded operator after its comment. -/
def srcC8 : Str := "/*c*/ int operator+(int a);".data

/-- A context whose section `x` holds three consecutive blank lines. -/
def ctxC7 : DocContext := ⟨[("x".data, "a\n\n\n\nb".data)], [], [], [], []⟩

/-- The inner text of the single comment of `srcS9`. -/
def cmt9 : Str := "@DOC\n@X\n@END".data

/-- The comment record extracted from `srcS9`. -/
def cd9 : CommentData := ⟨0, 18, cmt9⟩

/-- The head of a `dropWhile` result never satisfies the predicate. -/
theorem head?_dropWhile_false (p : Char → Bool) :
    ∀ (l : List Char) (c : Char), (l.dropWhile p).head? = some c → p c = false := by
  intro l
  induction l with
  | nil => intro c h; simp at h
  | cons a r ih =>
    intro c h
    rw [List.dropWhile_cons] at h
    by_cases hp : p a = true
    · exact ih c (by simpa [hp] using h)
    · simp [hp] at h
      rw [← h, Bool.not_eq_true] at *
      exact hp

/-- A list whose head fails the predicate is unchanged by `dropWhile`. -/
theorem dropWhile_eq_self_of_head (p : Char → Bool) (l : List Char)
    (h : ∀ c, l.head? = some c → p c = false) : l.dropWhile p = l := by
  cases l with
  | nil => rfl
  | cons a r => rw [List.dropWhile_cons]; simp [h a rfl]

/-- `dropWhile` keeps the last element of the list when its result is
nonempty. -/
theorem getLast?_dropWhile (p : Char → Bool) :
    ∀ (l : List Char) (c : Char),
      (l.dropWhile p).getLast? = some c → l.getLast? = some c := by
  intro l
  induction l with
  | nil => intro c h; simp at h
  | cons a r ih =>
    intro c h
    rw [List.dropWhile_cons] at h
    by_cases hp : p a = true
    · simp only [hp, if_true] at h
      have hr := ih c h
      cases r with
      | nil => simp at hr
      | cons b t => rw [List.getLast?_cons_cons]; exact hr
    · simpa [hp] using h

/-- Members of a `dropWhile` result are members of the list. -/
theorem mem_of_mem_dropWhile (p : Char → Bool) :
    ∀ (l : List Char) (x : Char), x ∈ l.dropWhile p → x ∈ l := by
  intro l
  induction l with
  | nil => intro x h; simp at h
  | cons a r ih =>
    intro x h
    rw [List.dropWhile_cons] at h
    by_cases hp : p a = true
    · simp only [hp, if_true] at h
      exact List.mem_cons_of_mem a (ih x h)
    · simpa [hp] using h

/-- `strip` is idempotent: a stripped string has no whitespace at either
end, so stripping again changes nothing. -/
theorem strip_idem (s : Str) : strip (strip s) = strip s := by
  unfold strip
  set A := s.dropWhile isspaceC with hA
  set B := A.reverse.dropWhile isspaceC with hB
  have hBhead : ∀ c, B.head? = some c → isspaceC c = false :=
    fun c h => head?_dropWhile_false isspaceC A.reverse c (hB ▸ h)
  have hBrev : ∀ c, B.reverse.head? = some c → isspaceC c = false := by
    intro c h
    rw [List.head?_reverse] at h
    have h2 : A.reverse.getLast? = some c := getLast?_dropWhile isspaceC A.reverse c (hB ▸ h)
    rw [List.getLast?_reverse] at h2
    exact head?_dropWhile_false isspaceC s c (hA ▸ h2)
  rw [dropWhile_eq_self_of_head isspaceC B.reverse hBrev, List.reverse_reverse,
    dropWhile_eq_self_of_head isspaceC B hBhead]

/-- Members of a stripped string are members of the string. -/
theorem mem_of_mem_strip (s : Str) (x : Char) (h : x ∈ strip s) : x ∈ s := by
  unfold strip at h
  rw [List.mem_reverse] at h
  have h1 := mem_of_mem_dropWhile isspaceC _ x h
  rw [List.mem_reverse] at h1
  exact mem_of_mem_dropWhile isspaceC _ x h1

/-- Every argument the `parse_args` loop pushes is pushed through
`strip`, so all results are trimmed. -/
theorem pargsLoop_all_stripped (src : Str) :
    ∀ (l : List Char) (i lastPos : Nat) (pd bd cd : Int) (q : Bool)
      (acc : List Str) (res : List Str × Option Nat),
      (∀ a ∈ acc, strip a = a) →
      pargsLoop src l i lastPos pd bd cd q acc = some res →
      ∀ a ∈ res.1, strip a = a := by
  intro l
  induction l with
  | nil =>
    intro i lastPos pd bd cd q acc res hacc h
    unfold pargsLoop at h
    split at h
    · intro a ha
      cases h
      rcases List.mem_append.mp ha with h1 | h1
      · exact hacc a h1
      · rw [List.mem_singleton.mp h1]; exact strip_idem _
    · cases h
  | cons c rest ih =>
    intro i lastPos pd bd cd q acc res hacc h
    unfold pargsLoop at h
    by_cases hq : (if c = '"' then !q else q) = true
    · rw [if_pos hq] at h
      exact ih _ _ _ _ _ _ _ res hacc h
    · rw [if_neg hq] at h
      have haccStep : ∀ (b : Bool),
          ∀ a ∈ (if b then acc ++ [strip (extract src (lastPos + 1) i)] else acc),
            strip a = a := by
        intro b
        cases b
        · exact hacc
        · intro a ha
          rcases List.mem_append.mp ha with h2 | h2
          · exact hacc a h2
          · rw [List.mem_singleton.mp h2]; exact strip_idem _
      by_cases hpd : (if c = '(' then pd + 1 else if c = ')' then pd - 1 else pd) = -1
      · rw [if_pos hpd] at h
        cases h
        intro a ha
        rcases List.mem_append.mp ha with h1 | h1
        · exact haccStep _ a h1
        · rw [List.mem_singleton.mp h1]; exact strip_idem _
      · rw [if_neg hpd] at h
        exact ih _ _ _ _ _ _ _ res (haccStep _) h

/-- C2: splitting the buffer `"(a, (b,c), \"d,e\")"` from the opening
delimiter at index 0 yields exactly the arguments `a`, `(b,c)`,
`"d,e"` (commas inside brackets or quotes do not split), and in general
every argument returned by `parse_args` is trimmed (`strip` fixes it). -/
theorem parse_args_c2 :
    parse_args "(a, (b,c), \"d,e\")".data 0 =
      some (["a".data, "(b,c)".data, "\"d,e\"".data], some 16) ∧
    ∀ (src : Str) (i : Nat) (res : List Str × Option Nat),
      parse_args src i = some res → ∀ a ∈ res.1, strip a = a := by
  constructor
  · decide
  · intro src i res h a ha
    exact pargsLoop_all_stripped src _ _ _ _ _ _ _ _ res (by intro a h0; cases h0) h a ha

/-- Witness for C2: the middle argument of the example, selected by the
general trimmedness clause, is its own `strip`. -/
theorem parse_args_c2_witness : strip "(b,c)".data = "(b,c)".data :=
  parse_args_c2.2 "(a, (b,c), \"d,e\")".data 0
    (["a".data, "(b,c)".data, "\"d,e\"".data], some 16)
    parse_args_c2.1 "(b,c)".data (by decide)

/-- C6: at the step where the running parenthesis depth would become
negative (an unquoted `')'` at depth zero), the `parse_args` loop scans
forward for the nearest `')'` — which is the very character at the
current position `i` — and returns, as the final argument, the trimmed
text from just after the last comma up to that position, instead of
failing; the example run splits `"(a)"`. -/
theorem parse_args_negative_depth :
    (∀ (src : Str) (rest : List Char) (i lastPos : Nat) (bd cd : Int)
      (acc : List Str),
      pargsLoop src (')' :: rest) i lastPos 0 bd cd false acc =
        some (acc ++ [strip (extract src (lastPos + 1) (idxFrom (')' :: rest) i ')'))],
          some (idxFrom (')' :: rest) i ')')) ∧
      idxFrom (')' :: rest) i ')' = i) ∧
    parse_args "(a)".data 0 = some (["a".data], some 2) := by
  refine ⟨fun src rest i lastPos bd cd acc => ⟨rfl, rfl⟩, by decide⟩

/-- Unfolding a `drop` that yields a cons: the head is the character at
that position, the tail is the following drop, and the position is in
range. -/
theorem drop_eq_cons_parts :
    ∀ (src : Str) (i : Nat) (c : Char) (rest : List Char),
      src.drop i = c :: rest →
      charAt src i = c ∧ src.drop (i + 1) = rest ∧ i < src.length := by
  intro src
  induction src with
  | nil => intro i c rest h; simp at h
  | cons a t ih =>
    intro i c rest h
    cases i with
    | zero =>
      simp at h
      refine ⟨by simp [charAt, h.1], by simp [h.2], by simp⟩
    | succ j =>
      have h2 : t.drop j = c :: rest := by simpa using h
      obtain ⟨hc, hr, hl⟩ := ih j c rest h2
      refine ⟨by simpa [charAt] using hc, by simpa using hr, by simpa using hl⟩

/-- When the `parse_args` loop runs off the end of the text (the bracket
depth never went negative), the final pushed argument is the trimmed text
from just after the last top-level comma (or the start position) to the
end of the buffer minus its last character. -/
theorem pargsLoop_exhaustion (src : Str) (i0 : Nat) :
    ∀ (l : List Char) (i lastPos : Nat) (pd bd cd : Int) (q : Bool)
      (acc : List Str) (args : List Str),
      l = src.drop i →
      lastPos < src.length →
      (lastPos = i0 ∨ charAt src lastPos = ',') →
      pargsLoop src l i lastPos pd bd cd q acc = some (args, none) →
      ∃ lp, lp < src.length ∧ (lp = i0 ∨ charAt src lp = ',') ∧
        args.getLast? = some (strip (extract src (lp + 1) (src.length - 1))) := by
  intro l
  induction l with
  | nil =>
    intro i lastPos pd bd cd q acc args _hsync hlt hinv h
    unfold pargsLoop at h
    rw [if_pos (by omega)] at h
    cases h
    exact ⟨lastPos, hlt, hinv, List.getLast?_concat _⟩
  | cons c rest ih =>
    intro i lastPos pd bd cd q acc args hsync hlt hinv h
    obtain ⟨hc, hr, hi⟩ := drop_eq_cons_parts src i c rest hsync.symm
    unfold pargsLoop at h
    by_cases hq : (if c = '"' then !q else q) = true
    · rw [if_pos hq] at h
      exact ih (i + 1) lastPos pd bd cd _ acc args hr.symm hlt hinv h
    · rw [if_neg hq] at h
      by_cases hpd : (if c = '(' then pd + 1 else if c = ')' then pd - 1 else pd) = -1
      · rw [if_pos hpd] at h
        cases h
      · rw [if_neg hpd] at h
        have hgen : ∀ (B : Bool) (pd' bd' cd' : Int) (q' : Bool),
            pargsLoop src rest (i + 1) (if B then i else lastPos) pd' bd' cd' q'
              (if B then acc ++ [strip (extract src (lastPos + 1) i)] else acc) =
              some (args, none) →
            (charAt src i = ',' ∨ B = false) →
            ∃ lp, lp < src.length ∧ (lp = i0 ∨ charAt src lp = ',') ∧
              args.getLast? = some (strip (extract src (lp + 1) (src.length - 1))) := by
          intro B pd' bd' cd' q' h' hOr
          cases B with
          | false => exact ih (i + 1) lastPos pd' bd' cd' q' acc args hr.symm hlt hinv h'
          | true =>
            refine ih (i + 1) i pd' bd' cd' q' _ args hr.symm hi ?_ h'
            rcases hOr with hcm | hfalse
            · exact Or.inr hcm
            · exact absurd hfalse (by simp)
        refine hgen _ _ _ _ _ h ?_
        by_cases hcm : c = ','
        · exact Or.inl (by rw [hc, hcm])
        · exact Or.inr (by simp [hcm])

/-- C10: whenever the scan of `parse_args` reaches the end of the buffer
without the parenthesis depth going negative (result tag `none`: the
index was not updated), the returned final argument is the trimmed text
from just after the last top-level comma (or from just after the opening
delimiter when no comma split) up to the end of the buffer minus its last
character — the last character of the input is dropped. -/
theorem parse_args_exhaustion_drops_last :
    ∀ (src : Str) (index : Nat) (args : List Str),
      index < src.length →
      parse_args src index = some (args, none) →
      ∃ lp, lp < src.length ∧ (lp = index ∨ charAt src lp = ',') ∧
        args.getLast? = some (strip (extract src (lp + 1) (src.length - 1))) := by
  intro src index args hidx h
  exact pargsLoop_exhaustion src index (src.drop (index + 1)) (index + 1) index
    0 0 0 false [] args rfl hidx (Or.inl rfl) h

/-- Witness for C10: splitting `"(a, bc"` (no closing bracket) returns
`["a", "b"]` — the final argument `"b"` indeed stops one character short
of the buffer end, dropping the `c`. -/
theorem parse_args_exhaustion_drops_last_witness :
    ∃ lp, lp < ("(a, bc".data).length ∧
      (lp = 0 ∨ charAt "(a, bc".data lp = ',') ∧
      (["a".data, "b".data] : List Str).getLast? =
        some (strip (extract "(a, bc".data (lp + 1) (("(a, bc".data).length - 1))) :=
  parse_args_exhaustion_drops_last "(a, bc".data 0 ["a".data, "b".data]
    (by decide) (by decide)

/-- C3: on an argument list of length 3, FUNC_ARG index selection treats
`-1` exactly as `2` (the last argument) and rejects `3`; in general a
negative index `n` selects the `(length + n)`-th argument, and an
adjusted index outside `[0, length)` yields an error and no output
(`none`).  The appended text is the selected argument, so equal
selections append equal text. -/
theorem func_arg_index_selection :
    (∀ argss : List Str, argss.length = 3 →
      selectIdx argss (-1) = selectIdx argss 2 ∧
      selectIdx argss 2 = some (argss.getD 2 []) ∧
      selectIdx argss 3 = none) ∧
    (∀ (argss : List Str) (n : Int), n < 0 → 0 ≤ (argss.length : Int) + n →
      selectIdx argss n = selectIdx argss ((argss.length : Int) + n)) ∧
    (∀ (argss : List Str) (n : Int),
      ((if n < 0 then (argss.length : Int) + n else n) < 0 ∨
        (argss.length : Int) ≤ (if n < 0 then (argss.length : Int) + n else n)) →
      selectIdx argss n = none) := by
  refine ⟨?_, ?_, ?_⟩
  · intro argss hlen
    unfold selectIdx
    rw [hlen]
    norm_num
    rfl
  · intro argss n hneg hge
    unfold selectIdx
    have hsign2 : ¬ ((argss.length : Int) + n < 0) := by omega
    rw [if_pos hneg, if_neg hsign2]
  · intro argss n hout
    unfold selectIdx
    split at hout <;> rename_i hsign
    · rw [if_pos hsign, if_pos (by simpa using hout)]
    · rw [if_neg hsign, if_pos (by simpa using hout)]

/-- Witness for C3 at the concrete argument list `["a","b","c"]`. -/
theorem func_arg_index_selection_witness :
    selectIdx ["a".data, "b".data, "c".data] (-1) =
      selectIdx ["a".data, "b".data, "c".data] 2 ∧
    selectIdx ["a".data, "b".data, "c".data] 3 = none :=
  ⟨(func_arg_index_selection.1 ["a".data, "b".data, "c".data] (by decide)).1,
   (func_arg_index_selection.1 ["a".data, "b".data, "c".data] (by decide)).2.2⟩

/-- C5 is a code bug: on the source `srcC5`, whose comment contains
`@FUNC_ARG(x)`, the run aborts — `std::stoi("x")` at main.cpp line 273
throws `std::invalid_argument`, which no caller catches — instead of
reporting the malformed argument to the error stream and continuing. -/
theorem func_arg_stoi_aborts_run :
    process_source 1 srcC5 ctx0 true "t.cpp".data = .error .exn := by rfl

/-- Counterexample to C1: on `srcC1` the section `x`, selected by
`@SECTION(x)` in the first comment, does not stay selected for the second
comment — the prose `b` of the second comment lands in the main buffer
(`"  b "`), not in section `x` (whose buffer is `" a "`), because
`process_source` resets the current section after every comment of a real
source (main.cpp lines 462-463 sit inside the per-comment loop). -/
theorem section_not_persistent_counterexample :
    process_source 2 srcC1 ctx0 true "f.cpp".data =
      .ok ⟨[("x".data, " a ".data)], "  b ".data, [], [], []⟩ ∧
    hasSub "b".data " a ".data = false ∧
    hasSub "b".data "  b ".data = true := by
  refine ⟨by rfl, by decide, by decide⟩

/-- Over a nonempty comment list of a real source, the comment loop of
`process_source` leaves the current section reset to main (it resets it
after every comment, hence also after the last one). -/
theorem processComments_reset (rec : SrcRec) :
    ∀ (cs : List CommentData) (src : Str) (ctx : DocContext) (fn : Str)
      (c : DocContext),
      cs ≠ [] →
      processCommentsF rec cs src ctx true fn = .ok c →
      c.currentSection = [] := by
  intro cs
  induction cs with
  | nil => intro src ctx fn c hne _; exact absurd rfl hne
  | cons c0 rest ih =>
    intro src ctx fn c _ h
    unfold processCommentsF at h
    cases hcl : commentLoop rec c0.comment c0 src fn (c0.comment.length + 1) 0 false ctx with
    | error e =>
      rw [hcl] at h
      simp only [exBind] at h
      exact Except.noConfusion h
    | ok ctx2 =>
      rw [hcl] at h
      simp only [exBind, if_true] at h
      cases rest with
      | nil =>
        simp only [processCommentsF] at h
        cases h
        rfl
      | cons r1 rt => exact ih src _ fn c (by simp) h

/-- C1 amended: during processing of a real source file the current
section selector is reset to the main (empty) selector after every
comment, not once per file; consequently after a real source file with at
least one comment completes, the selector is the main one — but a section
selected by SECTION in one comment does not stay selected for subsequent
comments of the same file. -/
theorem current_section_reset_after_each_comment :
    ∀ (fuel : Nat) (src : Str) (ctx : DocContext) (fn : Str) (c : DocContext),
      extract_comments src ≠ [] →
      process_source fuel src ctx true fn = .ok c →
      c.currentSection = [] := by
  intro fuel src ctx fn c hne h
  cases fuel with
  | zero => exact Except.noConfusion h
  | succ f =>
    unfold process_source at h
    exact processComments_reset (process_source f) (extract_comments src) src ctx fn c hne h

/-- Witness for the amended C1 at the concrete run on `srcC1`. -/
theorem current_section_reset_after_each_comment_witness :
    (process_source 2 srcC1 ctx0 true "f.cpp".data).toOption.map
      (fun c => c.currentSection) = some [] := by
  have h : process_source 2 srcC1 ctx0 true "f.cpp".data =
      .ok ⟨[("x".data, " a ".data)], "  b ".data, [], [], []⟩ := by rfl
  have h2 := current_section_reset_after_each_comment 2 srcC1 ctx0 "f.cpp".data
    ⟨[("x".data, " a ".data)], "  b ".data, [], [], []⟩ (by decide) h
  rw [h]
  simp [Except.toOption, h2]

/-- Counterexample to C4: with alias `X → "@DOC hello @END"` registered,
processing a comment that invokes `@X` appends `" \n hello  "` to the
main buffer, while the comment with `@DOC hello @END` written directly in
place of `@X` appends `"  hello "` — the two runs differ, so alias
expansion is not observationally equivalent to manual inlining. -/
theorem alias_not_literal_inlining :
    process_source 3 srcAliasInvoke ctxAlias true "f.cpp".data =
      .ok ⟨[], " \n hello  ".data, [], [], aliasTab⟩ ∧
    process_source 3 srcAliasInline ctxAlias true "f.cpp".data =
      .ok ⟨[], "  hello ".data, [], [], aliasTab⟩ ∧
    (" \n hello  ".data : Str) ≠ "  hello ".data := by
  refine ⟨by rfl, by rfl, by decide⟩

/-- C4 amended: alias invocation is equivalent to processing the
synthesized pseudo-source `"/* @DOC\n" ++ replacement ++ "\n@END\n*/\n"`
followed by the source up to the next comment opener, with a fresh
documentation state — so for `X → "@DOC hello @END"` the invocation
appends the payload with a leading wrapper newline (`"\n hello "`) and
leaves the invoking comment's documentation state untouched, whereas
manual inlining appends `" hello "` and its `@END` suppresses the
following prose of the host comment. -/
theorem alias_expansion_payload :
    (process_source 3 srcAliasInvoke ctxAlias true "f.cpp".data).toOption.map
      (fun c => c.mainSection) = some " \n hello  ".data ∧
    (process_source 3 srcAliasInline ctxAlias true "f.cpp".data).toOption.map
      (fun c => c.mainSection) = some "  hello ".data := by
  refine ⟨by rfl, by rfl⟩

/-- Counterexample to C7: section `x` holds `"a\n\n\n\nb"` (three
consecutive blank lines).  INSERT_SECTION appends `"a\n\n\nb\n\n"`: the
single regex pass shrank the run by one match only, and the appended text
still contains `"\n\n\n"`, i.e. two consecutive blank lines — not the
claimed collapse of every run of 2+ blank lines down to exactly one. -/
theorem insert_section_leaves_double_blank :
    (insert_section ctxC7 ["x".data]).output = "a\n\n\nb\n\n".data ∧
    hasSub "\n\n\n".data (insert_section ctxC7 ["x".data]).output = true := by
  refine ⟨by rfl, by decide⟩

/-- The scan of `simplify_md` on an empty text. -/
theorem smGo_nil : ∀ fuel : Nat, smGo fuel [] = [] := by
  intro fuel; cases fuel <;> rfl

/-- The regex head-match on a run of at least three newlines consumes
exactly three of them. -/
theorem matchNL3_replicate (k : Nat) :
    matchNL3 (List.replicate (k + 3) '\n') = some (List.replicate k '\n') := by
  have e3 : List.replicate (k + 3) '\n' =
      '\n' :: '\n' :: '\n' :: List.replicate k '\n' := by
    simp [List.replicate_succ]
  rw [e3]
  simp [matchNL3, dropSpTab]

/-- The single-pass scan on a pure run of `k` newlines: every full group
of three newlines becomes two, so `k` newlines become
`2 * (k / 3) + k % 3` newlines. -/
theorem smGo_newline_run :
    ∀ (k fuel : Nat), k ≤ fuel →
      smGo fuel (List.replicate k '\n') =
        List.replicate (2 * (k / 3) + k % 3) '\n' := by
  intro k
  induction k using Nat.strong_induction_on with
  | _ k ih =>
    intro fuel hf
    rcases k with _ | _ | _ | m
    · simp [smGo_nil]
    · rcases fuel with _ | f
      · omega
      · show smGo (f + 1) ['\n'] = ['\n']
        simp [smGo, matchNL3, dropSpTab, smGo_nil]
    · rcases fuel with _ | _ | f
      · omega
      · omega
      · show smGo (f + 1 + 1) ['\n', '\n'] = ['\n', '\n']
        simp [smGo, matchNL3, dropSpTab, smGo_nil]
    · rcases fuel with _ | f
      · omega
      · have hstep : List.replicate (m + 3) '\n' =
            '\n' :: List.replicate (m + 2) '\n' := List.replicate_succ '\n' (m + 2)
        rw [hstep]
        simp only [smGo]
        rw [← hstep, matchNL3_replicate m]
        have hrec := ih m (by omega) f (by omega)
        simp only [hrec]
        have harith : 2 * ((m + 3) / 3) + (m + 3) % 3 =
            (2 * (m / 3) + m % 3) + 2 := by
          rw [Nat.add_div_right m (by norm_num), Nat.add_mod_right]
          ring
        rw [harith]
        have hrep : List.replicate (2 * (m / 3) + m % 3 + 2) '\n' =
            '\n' :: '\n' :: List.replicate (2 * (m / 3) + m % 3) '\n' := by
          rw [List.replicate_succ, List.replicate_succ]
        rw [hrep]

/-- C7 amended: INSERT_SECTION on a missing section reports an error and
changes nothing; on a populated section it appends the buffer passed
through one left-to-right `regex_replace` pass (each non-overlapping
match of newline, optional blanks, newline, optional blanks, newline is
replaced by two newlines, the scan resuming after the match) plus one
trailing blank line; on a run of `k` newlines the pass leaves
`2 * (k / 3) + k % 3` newlines — a run of 3 newlines becomes one blank
line, but longer runs can keep two or more consecutive blank lines. -/
theorem insert_section_single_pass :
    (∀ (ctx : DocContext) (name : Str),
      lookupMap ctx.sections name = none → insert_section ctx [name] = ctx) ∧
    (∀ (ctx : DocContext) (name buf : Str),
      lookupMap ctx.sections name = some buf →
      (insert_section ctx [name]).output =
        ctx.output ++ simplify_md buf ++ ['\n', '\n']) ∧
    (∀ k : Nat, simplify_md (List.replicate k '\n') =
      List.replicate (2 * (k / 3) + k % 3) '\n') := by
  refine ⟨?_, ?_, ?_⟩
  · intro ctx name hmiss
    unfold insert_section
    norm_num [hmiss]
  · intro ctx name buf hfound
    unfold insert_section
    norm_num [hfound]
  · intro k
    unfold simplify_md
    rw [List.length_replicate]
    exact smGo_newline_run k k (Nat.le_refl k)

/-- Witness for the amended C7: a missing section leaves the context
unchanged, and a run of four newlines keeps three of them. -/
theorem insert_section_single_pass_witness :
    insert_section ctx0 ["x".data] = ctx0 ∧
    simplify_md (List.replicate 4 '\n') = List.replicate 3 '\n' :=
  ⟨insert_section_single_pass.1 ctx0 "x".data (by decide),
   insert_section_single_pass.2.2 4⟩

/-- Counterexample to C8: on `srcC8` (whose next identifier before a
round bracket is `operator`), FUNC_NAME emits `"operator+"` — the capture
was extended forward over the `+`, but the emitted text does not include
the opening round bracket. -/
theorem func_name_operator_counterexample :
    funcNameCapture srcC8 5 = .ok "operator+".data ∧
    ('(' ∈ "operator+".data → False) := by
  refine ⟨by rfl, by decide⟩

/-- Positions passed over by `scanFrom` fail the predicate. -/
theorem scanFrom_spec (src : Str) (p : Char → Bool) :
    ∀ (l : List Char) (i : Nat), l = src.drop i →
      ∀ j, i ≤ j → j < scanFrom p l i → p (charAt src j) = false := by
  intro l
  induction l with
  | nil =>
    intro i _ j hij hlt
    unfold scanFrom at hlt
    omega
  | cons c rest ih =>
    intro i hsync j hij hlt
    obtain ⟨hc, hr, _⟩ := drop_eq_cons_parts src i c rest hsync.symm
    unfold scanFrom at hlt
    by_cases hp : p c = true
    · rw [if_pos hp] at hlt; omega
    · rw [if_neg hp] at hlt
      rcases Nat.eq_or_lt_of_le hij with rfl | hgt
      · rw [hc]; exact Bool.not_eq_true _ |>.mp hp
      · exact ih (i + 1) hr.symm j hgt hlt

/-- Characters scanned over by `scanToCh` differ from the target. -/
theorem scanToCh_spec (src : Str) (start : Nat) (c : Char) :
    ∀ j, start ≤ j → j < scanToCh src start c → charAt src j ≠ c := by
  intro j h1 h2 hEq
  have := scanFrom_spec src (fun x => x = c) (src.drop start) start rfl j h1 h2
  rw [hEq] at this
  simp at this

/-- Positions walked over by `walkBackWhile` satisfy the predicate. -/
theorem walkBackWhile_spec (p : Char → Bool) (src : Str) :
    ∀ (e j : Nat), walkBackWhile p src e ≤ j → j < e → p (charAt src j) = true := by
  intro e
  induction e with
  | zero => intro j _ hlt; omega
  | succ e ih =>
    intro j hge hlt
    unfold walkBackWhile at hge
    by_cases hp : p (charAt src e) = true
    · rw [if_pos hp] at hge
      rcases Nat.lt_succ_iff_lt_or_eq.mp hlt with hlt2 | rfl
      · exact ih j hge hlt2
      · exact hp
    · rw [if_neg hp] at hge; omega

/-- A member of an extracted range is the character at some position of
that range. -/
theorem mem_extract_charAt (s : Str) (a b : Nat) (x : Char)
    (h : x ∈ extract s a b) : ∃ j, a ≤ j ∧ j < b ∧ charAt s j = x := by
  unfold extract at h
  rcases List.mem_iff_getElem.mp h with ⟨k, hk, he⟩
  have hlen : k < (s.take b).length - a := by
    simpa [List.length_drop] using hk
  have hlen2 : (s.take b).length = min b s.length := by simp
  refine ⟨a + k, by omega, by omega, ?_⟩
  have h1 : ((s.take b).drop a)[k] = (s.take b)[a + k] := List.getElem_drop _
  have h2 : (s.take b)[a + k] = s[a + k] := List.getElem_take _
  rw [h1, h2] at he
  rw [charAt, List.getD_eq_getElem?_getD, List.getElem?_eq_getElem (by omega)]
  simpa using he

/-- C8 amended: the FUNC_NAME capture never contains an opening round
bracket — the backward walk collects identifier characters only, and the
forward extension of the `operator` special case stops at (and excludes)
the next opening round bracket. -/
theorem func_name_capture_excludes_bracket :
    ∀ (src : Str) (ei : Nat) (a : Str),
      funcNameCapture src ei = .ok a → '(' ∉ a := by
  intro src ei a h hmem
  unfold funcNameCapture substrE at h
  set e0 := scanToCh src (ei + 1) '(' with he0
  set e1 := walkBackWhile (fun c => !(isalnumC c || c = '_')) src e0 with he1
  set s0 := walkBackWhile (fun c => isalnumC c || c = '_') src e1 with hs0
  have hident : ∀ j, s0 ≤ j → j < e1 →
      (isalnumC (charAt src j) || charAt src j = '_') = true :=
    fun j h1 h2 => walkBackWhile_spec _ src e1 j h1 h2
  have hnotpar : ∀ j, s0 ≤ j → j < e1 → charAt src j ≠ '(' := by
    intro j h1 h2 hEq
    have := hident j h1 h2
    rw [hEq] at this
    simp [isalnumC] at this
  by_cases hle : s0 ≤ src.length
  · simp only [if_pos hle, exBind] at h
    by_cases hop : strip (extract src s0 e1) = "operator".data
    · simp only [if_pos hop] at h
      cases h
      have hmem2 := mem_of_mem_strip _ _ hmem
      rcases mem_extract_charAt src s0 _ '(' hmem2 with ⟨j, hj1, hj2, hj3⟩
      by_cases hje : j < e1
      · exact hnotpar j hj1 hje hj3
      · exact scanToCh_spec src e1 '(' j (by omega) hj2 hj3
    · simp only [if_neg hop] at h
      cases h
      have hmem2 := mem_of_mem_strip _ _ hmem
      rcases mem_extract_charAt src s0 e1 '(' hmem2 with ⟨j, hj1, hj2, hj3⟩
      exact hnotpar j hj1 hj2 hj3
  · simp only [if_neg hle, exBind] at h
    exact Except.noConfusion h

/-- Witness for the amended C8 at the concrete capture on `srcC8`. -/
theorem func_name_capture_excludes_bracket_witness :
    '(' ∉ "operator+".data :=
  func_name_capture_excludes_bracket srcC8 5 "operator+".data (by rfl)

/-- On `srcS9` with the self-referential alias table, one level of
`process_source` reaches `@X` after appending the wrapper newline and
re-enters itself on the very same pseudo-source, whatever the remaining
fuel: every fuel value is exhausted. -/
theorem s9_loop : ∀ (fuel : Nat) (se : List (Str × Str)) (mn cs out : Str)
    (rs : Bool),
    process_source fuel srcS9 ⟨se, mn, cs, out, aliasSelf⟩ rs "f.cpp".data =
      .error .outOfFuel := by
  intro fuel
  induction fuel with
  | zero => intro se mn cs out rs; rfl
  | succ f ih =>
    intro se mn cs out rs
    cases cs with
    | nil =>
      have key : process_source (f + 1) srcS9 ⟨se, mn, [], out, aliasSelf⟩ rs
          "f.cpp".data =
          exBind (exBind
            (process_source f srcS9 ⟨se, mn ++ ['\n'], [], out, aliasSelf⟩ false
              "f.cpp".data)
            (fun c2 => commentLoop (process_source f) cmt9 cd9 srcS9 "f.cpp".data
              10 7 true c2))
          (fun c2 => processCommentsF (process_source f) [] srcS9
            (if rs then { c2 with currentSection := [] } else c2) rs
            "f.cpp".data) := rfl
      rw [ih se (mn ++ ['\n']) [] out false] at key
      simpa [exBind] using key
    | cons c cs' =>
      have key : process_source (f + 1) srcS9 ⟨se, mn, c :: cs', out, aliasSelf⟩ rs
          "f.cpp".data =
          exBind (exBind
            (process_source f srcS9
              ⟨appendToKey se (c :: cs') '\n', mn, c :: cs', out, aliasSelf⟩ false
              "f.cpp".data)
            (fun c2 => commentLoop (process_source f) cmt9 cd9 srcS9 "f.cpp".data
              10 7 true c2))
          (fun c2 => processCommentsF (process_source f) [] srcS9
            (if rs then { c2 with currentSection := [] } else c2) rs
            "f.cpp".data) := rfl
      rw [ih (appendToKey se (c :: cs') '\n') mn (c :: cs') out false] at key
      simpa [exBind] using key

/-- C9: with the alias table mapping `X` to `"@X"` and the source
`srcS9`, whose comment invokes `@X`, interpretation re-enters
`process_source` on the identical synthesized pseudo-source with no cycle
detection or depth bound: no amount of fuel completes the run, i.e. the
C++ recursion does not terminate. -/
theorem alias_self_reference_diverges :
    ∀ fuel : Nat,
      process_source fuel srcS9 ctx9 true "f.cpp".data = .error .outOfFuel :=
  fun fuel => s9_loop fuel [] [] [] [] true
